import Mathlib

/-!
Verification development for the IpMatix configuration automation tool
(`config_tool.py`).  The program is embedded shallowly: file contents are
lists of lines (`List (List Char)`), the filesystem is a tree value, and
each Python function becomes a Lean function of the same name.  Machine
strings are `List Char`; Python `str.replace`, `re.findall(r"(\d{4,5})")`,
`int(...)`, `str(...)`, `.strip()`, `.upper()` and `.lower().endswith(...)`
are each given an explicit executable model below.
-/

set_option maxHeartbeats 1000000

namespace ConfigTool

/-- Scanner for `str.replace`: the `skip` counter is the number of
characters of an already-emitted match occurrence still to be consumed, so
the recursion is structural in the string.  At `skip = 0`, a position where
`old` is a prefix emits `new` and skips the matched occurrence; otherwise
the character is copied.  Matches are found left to right, non-overlapping,
and inserted replacement text is never rescanned, exactly as in Python. -/
def replaceAux (old new : List Char) : Nat → List Char → List Char
  | _, [] => []
  | k + 1, _ :: rest => replaceAux old new k rest
  | 0, c :: rest =>
    if old.isPrefixOf (c :: rest) then
      new ++ replaceAux old new (old.length - 1) rest
    else
      c :: replaceAux old new 0 rest

/-- Model of Python `str.replace(old, new)` for nonempty `old`:
replace every non-overlapping occurrence of `old`, scanning left to right,
without rescanning the inserted replacement text. -/
def replaceNE (old new s : List Char) : List Char :=
  replaceAux old new 0 s

/-- Model of Python `s.replace(old, new)` including the special case of an
empty pattern, where Python inserts `new` before every character and at the
end (`"abc".replace("", "-") = "-a-b-c-"`). -/
def pyReplace (old new s : List Char) : List Char :=
  if old.isEmpty then new ++ s.flatMap (fun c => c :: new)
  else replaceNE old new s

/-- Substring occurrence test: `occursIn pat s` holds when `pat` appears
as a contiguous substring of `s`. -/
def occursIn (pat : List Char) : List Char → Bool
  | [] => pat.isEmpty
  | c :: rest => pat.isPrefixOf (c :: rest) || occursIn pat rest

/-- Scanner for `re.findall(r"(\d{4,5})", line)`, with a `skip` counter for
the characters of an already-recorded match still to be consumed (so the
recursion is structural).  At `skip = 0`, a digit position whose maximal
digit run has length at least five greedily records the first five digits
and skips them; a run of exactly four records the whole run and skips it; a
shorter run (or a non-digit) advances one character. -/
def findPortsAux : Nat → List Char → List (List Char)
  | _, [] => []
  | k + 1, _ :: rest => findPortsAux k rest
  | 0, c :: rest =>
    if c.isDigit then
      if 5 ≤ ((c :: rest).takeWhile Char.isDigit).length then
        ((c :: rest).takeWhile Char.isDigit).take 5 :: findPortsAux 4 rest
      else if ((c :: rest).takeWhile Char.isDigit).length = 4 then
        (c :: rest).takeWhile Char.isDigit :: findPortsAux 3 rest
      else
        findPortsAux 0 rest
    else
      findPortsAux 0 rest

/-- Model of Python `re.findall(r"(\d{4,5})", line)`: scan left to right;
at each digit position greedily match up to five digits provided at least
four are available, then continue after the match; otherwise advance one
character. -/
def findPorts (s : List Char) : List (List Char) :=
  findPortsAux 0 s

/-- Model of Python `int(...)` on a string of decimal digits. -/
def digitsToNat (s : List Char) : Nat :=
  s.foldl (fun acc c => acc * 10 + (c.toNat - 48)) 0

/-- Accumulator-style decimal printing of a natural number; the first
argument is recursion fuel, always called with at least the number itself,
which bounds the digit count. -/
def natToDigitsAux : Nat → Nat → List Char → List Char
  | 0, _, acc => acc
  | f + 1, n, acc =>
    if n = 0 then acc
    else natToDigitsAux f (n / 10) (Char.ofNat (48 + n % 10) :: acc)

/-- Decimal representation of a natural number (Python `str(n)` for `n ≥ 0`). -/
def natToDigits (n : Nat) : List Char :=
  if n = 0 then ['0'] else natToDigitsAux n n []

/-- Model of Python `str(i)` for an integer. -/
def intRepr (i : Int) : List Char :=
  if i < 0 then '-' :: natToDigits i.natAbs else natToDigits i.toNat

/-- A string with no decimal digit characters. -/
def digitFree (s : List Char) : Bool := s.all (fun c => !c.isDigit)

/-- A nonempty string consisting entirely of decimal digits. -/
def digitRun (p : List Char) : Bool := p.all Char.isDigit && !p.isEmpty

/-- A digit run of length four or five: the shape of a `re.findall` match. -/
def portRun (p : List Char) : Bool :=
  p.all Char.isDigit && (p.length = 4 || p.length = 5)

/-- The string is empty or starts with a non-digit character. -/
def startsNonDigit : List Char → Bool
  | [] => true
  | c :: _ => !c.isDigit

/-- Model of Python `str.strip()` (default whitespace stripping). -/
def pyStrip (s : List Char) : List Char :=
  ((s.dropWhile Char.isWhitespace).reverse.dropWhile Char.isWhitespace).reverse

/-- Model of Python `str.upper()` (ASCII model). -/
def pyUpper (s : List Char) : List Char := s.map Char.toUpper

/-- The string-substitution phase of `modify_ports_and_paths` (lines 54-55):
apply each `(old, new)` pair of the ruleset's replace mapping in iteration
order, sequentially. -/
def applyReplacements (rules : List (List Char × List Char)) (line : List Char) :
    List Char :=
  rules.foldl (fun l pr => pyReplace pr.1 pr.2 l) line

/-- One iteration of the port loop of `modify_ports_and_paths` (lines 59-63):
if the matched numeral's value lies in `[4000, 6000]`, replace every literal
occurrence of the numeral by the shifted value's decimal representation. -/
def portFoldStep (offset : Int) (l port : List Char) : List Char :=
  let v := digitsToNat port
  if 4000 ≤ v ∧ v ≤ 6000 then
    pyReplace port (intRepr ((v : Int) + offset)) l
  else l

/-- The port-renumbering phase of `modify_ports_and_paths` (lines 58-63):
find all `\d{4,5}` matches of the line, then fold the replacement loop over
them in match order. -/
def processPorts (offset : Int) (line : List Char) : List Char :=
  (findPorts line).foldl (portFoldStep offset) line

/-- Per-line processing of `modify_ports_and_paths` (lines 52-65): string
substitution first, then port renumbering on the substituted line. -/
def processLine (rules : List (List Char × List Char)) (offset : Int)
    (line : List Char) : List Char :=
  processPorts offset (applyReplacements rules line)

/-- Whole-file content transformation of `modify_ports_and_paths`: the file is
read as a list of lines, each line is processed, and the file is rewritten
with the processed lines. -/
def modify_ports_and_paths (rules : List (List Char × List Char)) (offset : Int)
    (content : List (List Char)) : List (List Char) :=
  content.map (processLine rules offset)

/-!
Filesystem model.  A node carries its own name; a directory additionally
carries a creation timestamp (the value `os.path.getctime` would report)
and its children in `os.listdir` order.  File contents are the list of
lines `readlines()` would produce.
-/

/-- A filesystem node: a named file with line contents, or a named
directory with a creation timestamp and an ordered list of children. -/
inductive FSTree where
  | file (name : List Char) (content : List (List Char))
  | dir (name : List Char) (ctime : Nat) (children : List FSTree)

/-- Name of a filesystem node. -/
def FSTree.name : FSTree → List Char
  | file n _ => n
  | dir n _ _ => n

/-- Whether a node is a directory (`os.path.isdir`). -/
def FSTree.isDir : FSTree → Bool
  | dir _ _ _ => true
  | file _ _ => false

/-- Creation timestamp of a node (`os.path.getctime`); only directory
timestamps are ever compared by the program. -/
def FSTree.ctime : FSTree → Nat
  | dir _ t _ => t
  | file _ _ => 0

/-- Rename a node, keeping everything else; the shape `copytree` gives the
copied tree under its destination name. -/
def FSTree.rename : FSTree → List Char → FSTree
  | file _ c, n => FSTree.file n c
  | dir _ t cs, n => FSTree.dir n t cs

/-- Find a child entry by name (`os.path.join(p, name)` resolution one
level down). -/
def findChild (n : List Char) (cs : List FSTree) : Option FSTree :=
  cs.find? (fun c => c.name == n)

/-- Resolve a relative path (list of component names) inside a tree. -/
def lookupPath : FSTree → List (List Char) → Option FSTree
  | t, [] => some t
  | FSTree.file _ _, _ :: _ => none
  | FSTree.dir _ _ cs, n :: rest =>
    match findChild n cs with
    | some c => lookupPath c rest
    | none => none

/-- Model of Python `max(xs, key=os.path.getctime)` over directory nodes:
iterate keeping the current maximum, replacing it only on a strictly larger
key, so the first element with the maximal key wins. -/
def pyMaxBy : FSTree → List FSTree → FSTree
  | best, [] => best
  | best, x :: rest => pyMaxBy (if best.ctime < x.ctime then x else best) rest

/-- Errors the embedded program can raise. -/
inductive PyErr where
  | fileNotFound
  | notADirectory
deriving DecidableEq

/-- Embedding of `get_latest_version_path` (lines 18-29) on the listing of a
server root: keep only the directory children (in `os.listdir` order), fail
with `FileNotFoundError` when there are none, otherwise return the child
with the maximum creation timestamp. -/
def get_latest_version_path (cs : List FSTree) : Except PyErr FSTree :=
  match cs.filter FSTree.isDir with
  | [] => Except.error PyErr.fileNotFound
  | d :: rest => Except.ok (pyMaxBy d rest)

/-- Embedding of `version_exists` (lines 32-34): `os.path.exists` of
`root/version`, true when any child (file or directory) has that name. -/
def version_exists (cs : List FSTree) (version : List Char) : Bool :=
  (findChild version cs).isSome

/-- Model of Python `file.lower().endswith(".ini")` (line 75). -/
def iniName (name : List Char) : Bool :=
  (".ini".toList).isSuffixOf (name.map Char.toLower)

mutual

/-- Per-entry action of the `os.walk` loop in `update_environment_files`
(lines 71-76): a file is rewritten in place exactly when its name has the
case-insensitive `.ini` extension; a directory is recursed into. -/
def updateEntry (rules : List (List Char × List Char)) (offset : Int) :
    FSTree → FSTree
  | FSTree.file n c =>
    if iniName n then FSTree.file n (modify_ports_and_paths rules offset c)
    else FSTree.file n c
  | FSTree.dir n t cs => FSTree.dir n t (updateEntries rules offset cs)

/-- Apply `updateEntry` to every child of a directory. -/
def updateEntries (rules : List (List Char × List Char)) (offset : Int) :
    List FSTree → List FSTree
  | [] => []
  | t :: ts => updateEntry rules offset t :: updateEntries rules offset ts

end

/-- Embedding of `update_environment_files` (lines 71-76): walk the version
folder and apply `modify_ports_and_paths` to every `.ini` file beneath it.
`os.walk` of a non-directory yields nothing, so a file root is untouched. -/
def update_environment_files (rules : List (List Char × List Char))
    (offset : Int) : FSTree → FSTree
  | FSTree.file n c => FSTree.file n c
  | FSTree.dir n t cs => FSTree.dir n t (updateEntries rules offset cs)

/-- A configured server: name and root path (`servers.json` entry). -/
structure Server where
  name : List Char
  path : List Char

/-- The world maps each server root path to the tree rooted there; an absent
path models `os.path.exists(server_path) == False`. -/
abbrev World := List (List Char × FSTree)

/-- Resolve a server root path in the world. -/
def lookupW (p : List Char) (w : World) : Option FSTree :=
  (w.find? (fun e => e.1 == p)).map Prod.snd

/-- Replace the tree at a server root path. -/
def updateW (p : List Char) (t : FSTree) : World → World
  | [] => []
  | e :: rest => if e.1 == p then (p, t) :: rest else e :: updateW p t rest

/-- Outcome of processing one server, mirroring the three return paths of
`process_server`. -/
inductive Outcome where
  | pathMissing
  | skipped
  | updated
deriving DecidableEq

/-- An environment ruleset (`environment.json` entry): an ordered list of
string replacements and a port offset. -/
structure EnvRules where
  replace : List (List Char × List Char)
  port_offset : Int

/-- Embedding of `process_server` (lines 79-95).  Missing path: report and
return.  Existing target version: report and return (skip).  Otherwise
resolve the latest version directory (raising `FileNotFoundError` when the
root has no subdirectories), copy it under the new version name, and rewrite
the copied tree's `.ini` files.  An `Except.error` models an uncaught Python
exception escaping `process_server`. -/
def process_server (nv : List Char) (rules : List (List Char × List Char))
    (offset : Int) (srv : Server) (w : World) :
    Except PyErr (World × Outcome) :=
  match lookupW srv.path w with
  | none => Except.ok (w, Outcome.pathMissing)
  | some (FSTree.file _ _) => Except.error PyErr.notADirectory
  | some (FSTree.dir dn dt cs) =>
    if version_exists cs nv then Except.ok (w, Outcome.skipped)
    else
      match get_latest_version_path cs with
      | Except.error e => Except.error e
      | Except.ok latest =>
        let newChild := updateEntry rules offset (latest.rename nv)
        Except.ok
          (updateW srv.path (FSTree.dir dn dt (cs ++ [newChild])) w,
            Outcome.updated)

/-- Embedding of the top-level server loop of `main` (lines 113-114).  The
loop body has no exception handler, so an `Except.error` from
`process_server` propagates and ends the whole run. -/
def runServers (nv : List Char) (rules : List (List Char × List Char))
    (offset : Int) : List Server → World → Except PyErr (World × List Outcome)
  | [], w => Except.ok (w, [])
  | s :: rest, w =>
    match process_server nv rules offset s w with
    | Except.error e => Except.error e
    | Except.ok (w', o) =>
      match runServers nv rules offset rest w' with
      | Except.error e => Except.error e
      | Except.ok (w'', os) => Except.ok (w'', o :: os)

/-- Embedding of `main` (lines 98-116) after the two configuration files are
loaded: strip the version name, strip and uppercase the environment label,
abort (returning the unchanged world and an empty outcome list) when the
label is not a key of the rules mapping, otherwise run the server loop with
the selected ruleset. -/
def main (nvRaw envRaw : List Char) (serversData : List Server)
    (rulesData : List (List Char × EnvRules)) (w : World) :
    Except PyErr (World × List Outcome) :=
  match rulesData.find? (fun e => e.1 == pyUpper (pyStrip envRaw)) with
  | none => Except.ok (w, [])
  | some er =>
    runServers (pyStrip nvRaw) er.2.replace er.2.port_offset serversData w

/-!
Specification-side decomposition of a line into digit-free separators and
maximal digit runs, used to state the port-renumbering claims.
-/

/-- Build a line from a leading separator and a list of (run, separator)
segments: `s0 ++ p1 ++ s1 ++ p2 ++ s2 ++ ...`. -/
def buildLine (s0 : List Char) (segs : List (List Char × List Char)) :
    List Char :=
  s0 ++ segs.foldr (fun pr acc => pr.1 ++ pr.2 ++ acc) []

/-- Separator well-formedness: every separator is digit-free and every
separator other than the last is nonempty, so distinct runs never merge. -/
def sepsOk : List (List Char × List Char) → Bool
  | [] => true
  | [pr] => digitFree pr.2
  | pr :: rest => digitFree pr.2 && !pr.2.isEmpty && sepsOk rest

/-- The rewriting the code performs on a single matched numeral: shift by
the offset when the value is in `[4000, 6000]`, otherwise keep it. -/
def rewriteRun (offset : Int) (p : List Char) : List Char :=
  if 4000 ≤ digitsToNat p ∧ digitsToNat p ≤ 6000 then
    intRepr ((digitsToNat p : Int) + offset)
  else p

/-- State of one run mid-fold: rewritten when in range and its numeral is
among the already-processed matches, untouched otherwise. -/
def markBlock (offset : Int) (done : List (List Char)) (p : List Char) :
    List Char :=
  if p ∈ done ∧ 4000 ≤ digitsToNat p ∧ digitsToNat p ≤ 6000 then
    intRepr ((digitsToNat p : Int) + offset)
  else p

/-!
Concrete configurations used to instantiate the theorems below.
-/

/-- Example server over the root `/s1`. -/
def exSrv1 : Server := ⟨"srv1".toList, "/s1".toList⟩

/-- Example server over the root `/s2`. -/
def exSrv2 : Server := ⟨"srv2".toList, "/s2".toList⟩

/-- World for the fault-isolation scenario: `/s1` exists but has no version
subdirectory (only a plain file), `/s2` has the version directory `1.0`
holding one INI file. -/
def exWorldC1 : World :=
  [("/s1".toList, FSTree.dir ("s1".toList) 0
      [FSTree.file ("readme.txt".toList) []]),
   ("/s2".toList, FSTree.dir ("s2".toList) 0
      [FSTree.dir ("1.0".toList) 1
        [FSTree.file ("a.ini".toList) ["port=4500\n".toList]]])]

/-- Rules mapping with keys `A` and `B` only. -/
def exRulesC6 : List (List Char × EnvRules) :=
  [("A".toList, ⟨[], 100⟩), ("B".toList, ⟨[], 200⟩)]

/-- World with one server root holding version `3.7.0`. -/
def exWorldC6 : World :=
  [("/srv/api1".toList, FSTree.dir ("api1".toList) 0
      [FSTree.dir ("3.7.0".toList) 1
        [FSTree.file ("app.ini".toList) ["port=4500\n".toList]]])]

/-- Children of a server root that already holds the target version. -/
def exCsC8 : List FSTree :=
  [FSTree.dir ("3.8.0".toList) 1
    [FSTree.file ("app.ini".toList) ["port=4500\n".toList]]]

/-- World whose single server root already holds version `3.8.0`. -/
def exWorldC8 : World :=
  [("/srv/api1".toList, FSTree.dir ("api1".toList) 0 exCsC8)]

/-- Child listing for the version-resolver example: one plain file and two
version directories with distinct creation timestamps. -/
def exCsC7 : List FSTree :=
  [FSTree.file ("x.txt".toList) [],
   FSTree.dir ("v1".toList) 5 [],
   FSTree.dir ("v2".toList) 9 []]

/-- Version tree for the content-rewriter example: one INI file and one
text file, both containing an in-range port numeral. -/
def exTreeC9 : FSTree :=
  FSTree.dir ("3.8.0".toList) 1
    [FSTree.file ("app.ini".toList) ["port=4500\n".toList],
     FSTree.file ("readme.txt".toList) ["4500\n".toList]]

/-!
Helper lemmas.
-/

theorem replaceAux_skip (old new : List Char) (k : Nat) (s : List Char) :
    replaceAux old new k s = replaceAux old new 0 (s.drop k) := by
  induction s generalizing k with
  | nil => cases k <;> rfl
  | cons c rest ih =>
    cases k with
    | zero => rfl
    | succ k => exact ih k

theorem replaceNE_nil (old new : List Char) : replaceNE old new [] = [] := rfl

theorem replaceNE_cons (old new : List Char) (c : Char) (rest : List Char) :
    replaceNE old new (c :: rest) =
      if old.isPrefixOf (c :: rest) then
        new ++ replaceNE old new (rest.drop (old.length - 1))
      else c :: replaceNE old new rest := by
  show (if old.isPrefixOf (c :: rest) then
      new ++ replaceAux old new (old.length - 1) rest
    else c :: replaceAux old new 0 rest) = _
  rw [replaceAux_skip old new (old.length - 1) rest]
  rfl

theorem isPrefixOf_append_extend (p w v : List Char)
    (h : p.isPrefixOf w = true) : p.isPrefixOf (w ++ v) = true := by
  rw [List.isPrefixOf_iff_prefix] at h ⊢
  exact h.trans (List.prefix_append w v)

theorem isPrefixOf_length_le (p w : List Char) (h : p.isPrefixOf w = true) :
    p.length ≤ w.length := by
  rw [List.isPrefixOf_iff_prefix] at h
  exact h.length_le

theorem isPrefixOf_self (p : List Char) : p.isPrefixOf p = true := by
  rw [List.isPrefixOf_iff_prefix]

theorem isPrefixOf_of_append_nonDigit :
    ∀ (p w v : List Char), p.all Char.isDigit = true →
      startsNonDigit v = true → p.isPrefixOf (w ++ v) = true →
      p.isPrefixOf w = true
  | [], _, _, _, _, _ => by simp
  | d :: pr, [], v, hp, hv, h => by
    exfalso
    cases v with
    | nil => simp at h
    | cons e vs =>
      rw [List.nil_append, List.isPrefixOf_cons₂] at h
      rcases Bool.and_eq_true_iff.mp h with ⟨h1, _⟩
      have hd : d.isDigit = true := (Bool.and_eq_true_iff.mp hp).1
      have he : e.isDigit = false := by
        have := hv
        simp only [startsNonDigit, Bool.not_eq_true'] at this
        exact this
      rw [beq_iff_eq] at h1
      rw [h1, he] at hd
      cases hd
  | d :: pr, a :: ws, v, hp, hv, h => by
    rw [List.cons_append, List.isPrefixOf_cons₂] at h
    rcases Bool.and_eq_true_iff.mp h with ⟨h1, h2⟩
    rw [List.isPrefixOf_cons₂, h1, Bool.true_and]
    exact isPrefixOf_of_append_nonDigit pr ws v (Bool.and_eq_true_iff.mp hp).2 hv h2

theorem occursIn_nil (pat : List Char) : occursIn pat [] = pat.isEmpty := rfl

theorem occursIn_cons (pat : List Char) (c : Char) (rest : List Char) :
    occursIn pat (c :: rest) =
      (pat.isPrefixOf (c :: rest) || occursIn pat rest) := rfl

theorem occursIn_self (s : List Char) : occursIn s s = true := by
  cases s with
  | nil => rfl
  | cons c rest => rw [occursIn_cons, isPrefixOf_self, Bool.true_or]

theorem replaceNE_of_not_occursIn (pat new s : List Char)
    (h : occursIn pat s = false) : replaceNE pat new s = s := by
  induction s with
  | nil => rfl
  | cons c rest ih =>
    rw [occursIn_cons, Bool.or_eq_false_iff] at h
    rw [replaceNE_cons, if_neg (by simp [h.1]), ih h.2]

theorem replaceNE_self (pat new : List Char) (hne : pat ≠ []) :
    replaceNE pat new pat = new := by
  cases pat with
  | nil => exact absurd rfl hne
  | cons c pr =>
    rw [replaceNE_cons, if_pos (isPrefixOf_self _)]
    rw [show (c :: pr).length - 1 = pr.length by simp, List.drop_length]
    rw [replaceNE_nil, List.append_nil]

theorem replaceNE_digitFree_append (pat new : List Char)
    (hp : pat.all Char.isDigit = true) (hne : pat ≠ []) :
    ∀ (u v : List Char), digitFree u = true →
      replaceNE pat new (u ++ v) = u ++ replaceNE pat new v
  | [], _, _ => rfl
  | c :: u', v, hu => by
    rw [digitFree, List.all_cons] at hu
    rcases Bool.and_eq_true_iff.mp hu with ⟨h1, h2⟩
    have hc : c.isDigit = false := by simpa using h1
    have hnp : pat.isPrefixOf (c :: (u' ++ v)) = false := by
      cases pat with
      | nil => exact absurd rfl hne
      | cons d pr =>
        rw [List.isPrefixOf_cons₂]
        have hd : d.isDigit = true := (Bool.and_eq_true_iff.mp hp).1
        have hdc : (d == c) = false := by
          rw [beq_eq_false_iff_ne]
          intro he
          rw [he, hc] at hd
          cases hd
        rw [hdc, Bool.false_and]
    rw [List.cons_append, replaceNE_cons, if_neg (by simp [hnp]),
      replaceNE_digitFree_append pat new hp hne u' v h2, List.cons_append]

theorem replaceNE_block_append (pat new : List Char)
    (hp : pat.all Char.isDigit = true) (hne : pat ≠ []) :
    ∀ (b v : List Char), startsNonDigit v = true →
      replaceNE pat new (b ++ v) = replaceNE pat new b ++ replaceNE pat new v
  | [], _, _ => rfl
  | c :: b', v, hv => by
    by_cases hpre : pat.isPrefixOf (c :: (b' ++ v)) = true
    · have hpre' : pat.isPrefixOf (c :: b') = true :=
        isPrefixOf_of_append_nonDigit pat (c :: b') v hp hv
          (by rw [List.cons_append]; exact hpre)
      have hlen := isPrefixOf_length_le pat (c :: b') hpre'
      have hk : pat.length - 1 ≤ b'.length := by
        simp only [List.length_cons] at hlen
        omega
      rw [List.cons_append, replaceNE_cons, if_pos hpre, replaceNE_cons,
        if_pos hpre']
      rw [List.drop_append_of_le_length hk]
      rw [replaceNE_block_append pat new hp hne (b'.drop (pat.length - 1)) v hv]
      rw [List.append_assoc]
    · have hpre' : pat.isPrefixOf (c :: b') = false := by
        cases hh : pat.isPrefixOf (c :: b')
        · rfl
        · exact absurd
            (by have := isPrefixOf_append_extend pat (c :: b') v hh
                rwa [List.cons_append] at this)
            hpre
      rw [List.cons_append, replaceNE_cons, if_neg hpre, replaceNE_cons,
        if_neg (by simp [hpre'])]
      rw [replaceNE_block_append pat new hp hne b' v hv, List.cons_append]
termination_by b _ _ => b.length
decreasing_by
  · simp only [List.length_drop, List.length_cons]; omega
  · simp only [List.length_cons]; omega

theorem sepsOk_cons (pr : List Char × List Char)
    (rest : List (List Char × List Char)) (h : sepsOk (pr :: rest) = true) :
    digitFree pr.2 = true ∧ sepsOk rest = true ∧ (rest = [] ∨ pr.2 ≠ []) := by
  cases rest with
  | nil => exact ⟨h, rfl, Or.inl rfl⟩
  | cons q qs =>
    rw [show sepsOk (pr :: q :: qs) =
        (digitFree pr.2 && !pr.2.isEmpty && sepsOk (q :: qs)) from rfl] at h
    rcases Bool.and_eq_true_iff.mp h with ⟨h12, h3⟩
    rcases Bool.and_eq_true_iff.mp h12 with ⟨h1, h2⟩
    refine ⟨h1, h3, Or.inr ?_⟩
    simpa using h2

theorem startsNonDigit_append (s x : List Char) (hs : digitFree s = true)
    (h : s ≠ [] ∨ x = []) : startsNonDigit (s ++ x) = true := by
  cases s with
  | nil =>
    rcases h with h | h
    · exact absurd rfl h
    · rw [h]; rfl
  | cons c s' =>
    rw [digitFree, List.all_cons] at hs
    exact (Bool.and_eq_true_iff.mp hs).1

theorem replaceNE_body (pat new : List Char)
    (hp : pat.all Char.isDigit = true) (hne : pat ≠ []) :
    ∀ (segs : List (List Char × List Char)), sepsOk segs = true →
      (∀ pr ∈ segs, digitRun pr.1 = true) →
      (∀ pr ∈ segs, occursIn pat pr.1 = true → pr.1 = pat) →
      replaceNE pat new (segs.foldr (fun pr acc => pr.1 ++ pr.2 ++ acc) []) =
        (segs.map (fun pr => ((if pr.1 = pat then new else pr.1), pr.2))).foldr
          (fun pr acc => pr.1 ++ pr.2 ++ acc) []
  | [], _, _, _ => rfl
  | (b, s) :: rest, hsep, hblocks, hocc => by
    rcases sepsOk_cons (b, s) rest hsep with ⟨hs1, hs2, hs3⟩
    have hsv : startsNonDigit
        (s ++ rest.foldr (fun pr acc => pr.1 ++ pr.2 ++ acc) []) = true := by
      rcases hs3 with h | h
      · exact startsNonDigit_append s _ hs1 (Or.inr (by simp [h]))
      · exact startsNonDigit_append s _ hs1 (Or.inl h)
    have hrepb : replaceNE pat new b = if b = pat then new else b := by
      by_cases hb : b = pat
      · rw [if_pos hb, hb, replaceNE_self pat new hne]
      · rw [if_neg hb]
        have hnocc : occursIn pat b = false := by
          cases hob : occursIn pat b
          · rfl
          · exact absurd (hocc (b, s) (List.mem_cons_self _ _) hob) hb
        exact replaceNE_of_not_occursIn pat new b hnocc
    simp only [List.foldr_cons, List.map_cons]
    rw [List.append_assoc]
    rw [replaceNE_block_append pat new hp hne b _ hsv]
    rw [replaceNE_digitFree_append pat new hp hne s _ hs1]
    rw [replaceNE_body pat new hp hne rest hs2
      (fun pr hpr => hblocks pr (List.mem_cons_of_mem _ hpr))
      (fun pr hpr => hocc pr (List.mem_cons_of_mem _ hpr))]
    rw [hrepb, List.append_assoc]

theorem replaceNE_buildLine (pat new s0 : List Char)
    (segs : List (List Char × List Char))
    (hpat : digitRun pat = true) (h0 : digitFree s0 = true)
    (hsep : sepsOk segs = true)
    (hblocks : ∀ pr ∈ segs, digitRun pr.1 = true)
    (hocc : ∀ pr ∈ segs, occursIn pat pr.1 = true → pr.1 = pat) :
    replaceNE pat new (buildLine s0 segs) =
      buildLine s0
        (segs.map (fun pr => ((if pr.1 = pat then new else pr.1), pr.2))) := by
  rw [digitRun] at hpat
  rcases Bool.and_eq_true_iff.mp hpat with ⟨hall, hnemp⟩
  have hne : pat ≠ [] := by simpa using hnemp
  rw [buildLine, buildLine]
  rw [replaceNE_digitFree_append pat new hall hne s0 _ h0]
  rw [replaceNE_body pat new hall hne segs hsep hblocks hocc]

theorem pyMaxBy_mem (b : FSTree) (l : List FSTree) : pyMaxBy b l ∈ b :: l := by
  induction l generalizing b with
  | nil => simp [pyMaxBy]
  | cons x rest ih =>
    have h := ih (if b.ctime < x.ctime then x else b)
    rw [show pyMaxBy b (x :: rest) =
        pyMaxBy (if b.ctime < x.ctime then x else b) rest from rfl]
    rcases List.mem_cons.mp h with h1 | h1
    · rw [h1]
      split
      · exact List.mem_cons_of_mem _ (List.mem_cons_self _ _)
      · exact List.mem_cons_self _ _
    · exact List.mem_cons_of_mem _ (List.mem_cons_of_mem _ h1)

theorem pyMaxBy_max (b : FSTree) (l : List FSTree) :
    ∀ x ∈ b :: l, x.ctime ≤ (pyMaxBy b l).ctime := by
  induction l generalizing b with
  | nil =>
    intro x hx
    rcases List.mem_cons.mp hx with h | h
    · rw [h]; exact Nat.le_refl _
    · simp at h
  | cons y rest ih =>
    intro x hx
    have step : pyMaxBy b (y :: rest) =
        pyMaxBy (if b.ctime < y.ctime then y else b) rest := rfl
    have hb : b.ctime ≤ (if b.ctime < y.ctime then y else b).ctime := by
      split <;> omega
    have hy : y.ctime ≤ (if b.ctime < y.ctime then y else b).ctime := by
      split <;> omega
    rw [step]
    rcases List.mem_cons.mp hx with h1 | h1
    · rw [h1]
      exact Nat.le_trans hb (ih _ _ (List.mem_cons_self _ _))
    · rcases List.mem_cons.mp h1 with h2 | h2
      · rw [h2]
        exact Nat.le_trans hy (ih _ _ (List.mem_cons_self _ _))
      · exact ih _ _ (List.mem_cons_of_mem _ h2)

theorem findPortsAux_skip (k : Nat) (s : List Char) :
    findPortsAux k s = findPortsAux 0 (s.drop k) := by
  induction s generalizing k with
  | nil => cases k <;> rfl
  | cons c rest ih =>
    cases k with
    | zero => rfl
    | succ k => exact ih k

theorem findPorts_nil : findPorts [] = [] := rfl

theorem findPorts_cons (c : Char) (rest : List Char) :
    findPorts (c :: rest) =
      if c.isDigit then
        if 5 ≤ ((c :: rest).takeWhile Char.isDigit).length then
          ((c :: rest).takeWhile Char.isDigit).take 5 ::
            findPorts ((c :: rest).drop 5)
        else if ((c :: rest).takeWhile Char.isDigit).length = 4 then
          (c :: rest).takeWhile Char.isDigit :: findPorts ((c :: rest).drop 4)
        else findPorts rest
      else findPorts rest := by
  show (if c.isDigit then
      if 5 ≤ ((c :: rest).takeWhile Char.isDigit).length then
        ((c :: rest).takeWhile Char.isDigit).take 5 :: findPortsAux 4 rest
      else if ((c :: rest).takeWhile Char.isDigit).length = 4 then
        (c :: rest).takeWhile Char.isDigit :: findPortsAux 3 rest
      else findPortsAux 0 rest
    else findPortsAux 0 rest) = _
  rw [findPortsAux_skip 4 rest, findPortsAux_skip 3 rest]
  rfl

theorem findPorts_digitFree_prepend :
    ∀ (u v : List Char), digitFree u = true → findPorts (u ++ v) = findPorts v
  | [], _, _ => rfl
  | c :: u', v, hu => by
    rw [digitFree, List.all_cons] at hu
    rcases Bool.and_eq_true_iff.mp hu with ⟨h1, h2⟩
    have hc : c.isDigit = false := by simpa using h1
    rw [List.cons_append, findPorts_cons, if_neg (by simp [hc])]
    exact findPorts_digitFree_prepend u' v h2

theorem takeWhile_run_append (p v : List Char)
    (hp : p.all Char.isDigit = true) (hv : startsNonDigit v = true) :
    (p ++ v).takeWhile Char.isDigit = p := by
  rw [List.takeWhile_append_of_pos (fun a ha => List.all_eq_true.mp hp a ha)]
  cases v with
  | nil => rw [List.takeWhile_nil, List.append_nil]
  | cons e vs =>
    have he : ¬(e.isDigit = true) := by
      simp only [startsNonDigit, Bool.not_eq_true'] at hv
      simp [hv]
    rw [List.takeWhile_cons_of_neg he, List.append_nil]

theorem findPorts_run (p v : List Char) (hp : portRun p = true)
    (hv : startsNonDigit v = true) :
    findPorts (p ++ v) = p :: findPorts v := by
  simp only [portRun, Bool.and_eq_true, Bool.or_eq_true,
    decide_eq_true_eq] at hp
  obtain ⟨hall, hlen⟩ := hp
  cases p with
  | nil => simp at hlen
  | cons c p' =>
    have hall' := hall
    rw [List.all_cons] at hall'
    have hc : c.isDigit = true := (Bool.and_eq_true_iff.mp hall').1
    have htw : (c :: (p' ++ v)).takeWhile Char.isDigit = c :: p' := by
      rw [← List.cons_append]
      exact takeWhile_run_append (c :: p') v hall hv
    rw [List.cons_append, findPorts_cons, if_pos hc, htw]
    rcases hlen with h4 | h5
    · have hd : (c :: (p' ++ v)).drop 4 = v := by
        rw [← List.cons_append]
        exact List.drop_left' h4
      rw [if_neg (by omega), if_pos h4, hd]
    · have hd : (c :: (p' ++ v)).drop 5 = v := by
        rw [← List.cons_append]
        exact List.drop_left' h5
      have ht : (c :: p').take 5 = c :: p' := by
        rw [← h5]
        exact List.take_length _
      rw [if_pos (by omega), ht, hd]

theorem findPorts_body :
    ∀ (segs : List (List Char × List Char)), sepsOk segs = true →
      (∀ pr ∈ segs, portRun pr.1 = true) →
      findPorts (segs.foldr (fun pr acc => pr.1 ++ pr.2 ++ acc) []) =
        segs.map Prod.fst
  | [], _, _ => rfl
  | (p, s) :: rest, hsep, hruns => by
    rcases sepsOk_cons (p, s) rest hsep with ⟨hs1, hs2, hs3⟩
    have hsv : startsNonDigit
        (s ++ rest.foldr (fun pr acc => pr.1 ++ pr.2 ++ acc) []) = true := by
      rcases hs3 with h | h
      · exact startsNonDigit_append s _ hs1 (Or.inr (by simp [h]))
      · exact startsNonDigit_append s _ hs1 (Or.inl h)
    simp only [List.foldr_cons, List.map_cons]
    rw [List.append_assoc]
    rw [findPorts_run p _ (hruns (p, s) (List.mem_cons_self _ _)) hsv]
    rw [findPorts_digitFree_prepend s _ hs1]
    rw [findPorts_body rest hs2
      (fun pr hpr => hruns pr (List.mem_cons_of_mem _ hpr))]

theorem findPorts_buildLine (s0 : List Char)
    (segs : List (List Char × List Char)) (h0 : digitFree s0 = true)
    (hsep : sepsOk segs = true) (hruns : ∀ pr ∈ segs, portRun pr.1 = true) :
    findPorts (buildLine s0 segs) = segs.map Prod.fst := by
  rw [buildLine, findPorts_digitFree_prepend s0 _ h0,
    findPorts_body segs hsep hruns]

theorem natToDigitsAux_all_digit :
    ∀ (f n : Nat) (acc : List Char), acc.all Char.isDigit = true →
      (natToDigitsAux f n acc).all Char.isDigit = true
  | 0, _, _, hacc => hacc
  | f + 1, n, acc, hacc => by
    rw [natToDigitsAux]
    split
    · exact hacc
    · apply natToDigitsAux_all_digit f (n / 10)
      rw [List.all_cons]
      refine Bool.and_eq_true_iff.mpr ⟨?_, hacc⟩
      have h10 : n % 10 < 10 := Nat.mod_lt _ (by omega)
      have hdig : ∀ m : Nat, m < 10 → (Char.ofNat (48 + m)).isDigit = true := by
        decide
      exact hdig (n % 10) h10

theorem natToDigits_all_digit (n : Nat) :
    (natToDigits n).all Char.isDigit = true := by
  rw [natToDigits]
  split
  · decide
  · exact natToDigitsAux_all_digit n n [] rfl

theorem natToDigitsAux_length :
    ∀ (f n : Nat) (acc : List Char),
      acc.length ≤ (natToDigitsAux f n acc).length
  | 0, _, _ => Nat.le_refl _
  | f + 1, n, acc => by
    rw [natToDigitsAux]
    split
    · exact Nat.le_refl _
    · have h := natToDigitsAux_length f (n / 10) (Char.ofNat (48 + n % 10) :: acc)
      simp only [List.length_cons] at h
      omega

theorem natToDigits_ne_nil (n : Nat) : natToDigits n ≠ [] := by
  rw [natToDigits]
  split
  · simp
  · next hn =>
    have h1 : 1 ≤ (natToDigitsAux n n []).length := by
      cases n with
      | zero => exact absurd rfl hn
      | succ m =>
        rw [natToDigitsAux, if_neg (by omega)]
        have h := natToDigitsAux_length m ((m + 1) / 10)
          (Char.ofNat (48 + (m + 1) % 10) :: [])
        simp only [List.length_cons, List.length_nil] at h
        omega
    intro hcontra
    rw [hcontra] at h1
    simp at h1

theorem digitRun_natToDigits (n : Nat) : digitRun (natToDigits n) = true := by
  rw [digitRun]
  refine Bool.and_eq_true_iff.mpr ⟨natToDigits_all_digit n, ?_⟩
  simp [natToDigits_ne_nil n]

theorem intRepr_nonneg (i : Int) (h : 0 ≤ i) : intRepr i = natToDigits i.toNat := by
  rw [intRepr, if_neg (by omega)]

theorem digitRun_of_portRun (p : List Char) (hp : portRun p = true) :
    digitRun p = true := by
  simp only [portRun, Bool.and_eq_true, Bool.or_eq_true,
    decide_eq_true_eq] at hp
  rw [digitRun]
  refine Bool.and_eq_true_iff.mpr ⟨hp.1, ?_⟩
  have hne : p ≠ [] :=
    List.ne_nil_of_length_pos (by rcases hp.2 with h | h <;> omega)
  simp [hne]

theorem digitRun_markBlock (offset : Int) (done : List (List Char))
    (p : List Char) (hoff : -4000 ≤ offset) (hp : portRun p = true) :
    digitRun (markBlock offset done p) = true := by
  rw [markBlock]
  split
  · next hcond =>
    have h0 : (0 : Int) ≤ (digitsToNat p : Int) + offset := by
      have := hcond.2.1
      omega
    rw [intRepr_nonneg _ h0]
    exact digitRun_natToDigits _
  · exact digitRun_of_portRun p hp

theorem sepsOk_map_fst (f : List Char → List Char) :
    ∀ (segs : List (List Char × List Char)), sepsOk segs = true →
      sepsOk (segs.map (fun pr => (f pr.1, pr.2))) = true
  | [], _ => rfl
  | [pr], h => h
  | pr :: pr2 :: rest, h => by
    rw [show sepsOk (pr :: pr2 :: rest) =
        (digitFree pr.2 && !pr.2.isEmpty && sepsOk (pr2 :: rest)) from rfl] at h
    rcases Bool.and_eq_true_iff.mp h with ⟨h12, h3⟩
    rw [show sepsOk ((pr :: pr2 :: rest).map (fun pr => (f pr.1, pr.2))) =
        (digitFree pr.2 && !pr.2.isEmpty &&
          sepsOk ((pr2 :: rest).map (fun pr => (f pr.1, pr.2)))) from rfl]
    exact Bool.and_eq_true_iff.mpr ⟨h12, sepsOk_map_fst f (pr2 :: rest) h3⟩

theorem foldPorts_invariant (offset : Int) (s0 : List Char)
    (segs : List (List Char × List Char)) :
    ∀ (done remaining : List (List Char)),
      segs.map Prod.fst = done ++ remaining →
      -4000 ≤ offset →
      digitFree s0 = true →
      sepsOk segs = true →
      (∀ pr ∈ segs, portRun pr.1 = true) →
      (∀ p ∈ segs.map Prod.fst, ∀ q ∈ segs.map Prod.fst,
        occursIn p q = true → p = q) →
      (∀ p ∈ segs.map Prod.fst,
        4000 ≤ digitsToNat p → digitsToNat p ≤ 6000 →
        ∀ q ∈ segs.map Prod.fst,
          occursIn q (intRepr ((digitsToNat p : Int) + offset)) = false) →
      remaining.foldl (portFoldStep offset)
        (buildLine s0
          (segs.map (fun pr => (markBlock offset done pr.1, pr.2)))) =
      buildLine s0
        (segs.map (fun pr => (markBlock offset (done ++ remaining) pr.1, pr.2)))
  | done, [], _, _, _, _, _, _, _ => by
    rw [List.append_nil, List.foldl_nil]
  | done, q :: rem, hsplit, hoff, h0, hsep, hruns, hD, hR => by
    have hqmem : q ∈ segs.map Prod.fst := by
      rw [hsplit]
      exact List.mem_append_right done (List.mem_cons_self _ _)
    have hsplit' : segs.map Prod.fst = (done ++ [q]) ++ rem := by
      rw [hsplit]
      simp
    have happq : (done ++ [q]) ++ rem = done ++ q :: rem := by simp
    by_cases hin : 4000 ≤ digitsToNat q ∧ digitsToNat q ≤ 6000
    · -- the matched numeral is in range: the fold step replaces it
      have hq_run : portRun q = true := by
        obtain ⟨pr, hpr, he⟩ := List.mem_map.mp hqmem
        rw [← he]
        exact hruns pr hpr
      have hq_ne : q ≠ [] := by
        have hd := digitRun_of_portRun q hq_run
        rw [digitRun] at hd
        simpa using (Bool.and_eq_true_iff.mp hd).2
      have hblocksM : ∀ pr ∈ segs.map (fun pr => (markBlock offset done pr.1, pr.2)),
          digitRun pr.1 = true := by
        intro pr' h'
        obtain ⟨pr, hpr, he⟩ := List.mem_map.mp h'
        rw [← he]
        exact digitRun_markBlock offset done pr.1 hoff (hruns pr hpr)
      have hoccM : ∀ pr ∈ segs.map (fun pr => (markBlock offset done pr.1, pr.2)),
          occursIn q pr.1 = true → pr.1 = q := by
        intro pr' h' hoc
        obtain ⟨pr, hpr, he⟩ := List.mem_map.mp h'
        rw [← he] at hoc ⊢
        by_cases hcond : pr.1 ∈ done ∧ 4000 ≤ digitsToNat pr.1 ∧
            digitsToNat pr.1 ≤ 6000
        · rw [markBlock, if_pos hcond] at hoc
          have hfalse := hR pr.1 (List.mem_map_of_mem Prod.fst hpr)
            hcond.2.1 hcond.2.2 q hqmem
          rw [hfalse] at hoc
          cases hoc
        · rw [markBlock, if_neg hcond] at hoc ⊢
          exact (hD q hqmem pr.1 (List.mem_map_of_mem Prod.fst hpr) hoc).symm
      have hline : (segs.map (fun pr => (markBlock offset done pr.1, pr.2))).map
            (fun pr => ((if pr.1 = q then
              intRepr ((digitsToNat q : Int) + offset) else pr.1), pr.2)) =
          segs.map (fun pr => (markBlock offset (done ++ [q]) pr.1, pr.2)) := by
        rw [List.map_map]
        apply List.map_congr_left
        intro pr hpr
        simp only [Function.comp]
        by_cases hcond : pr.1 ∈ done ∧ 4000 ≤ digitsToNat pr.1 ∧
            digitsToNat pr.1 ≤ 6000
        · rw [markBlock, if_pos hcond]
          have hne2 : intRepr ((digitsToNat pr.1 : Int) + offset) ≠ q := by
            intro he
            have hfalse := hR pr.1 (List.mem_map_of_mem Prod.fst hpr)
              hcond.2.1 hcond.2.2 q hqmem
            rw [he, occursIn_self] at hfalse
            cases hfalse
          rw [if_neg hne2, markBlock,
            if_pos ⟨List.mem_append_left _ hcond.1, hcond.2⟩]
        · rw [markBlock, if_neg hcond]
          by_cases heq : pr.1 = q
          · rw [if_pos heq, markBlock,
              if_pos ⟨List.mem_append_right _ (by simp [heq]),
                by rw [heq]; exact ⟨hin.1, hin.2⟩⟩, heq]
          · rw [if_neg heq, markBlock, if_neg]
            intro hc
            rcases List.mem_append.mp hc.1 with h | h
            · exact hcond ⟨h, hc.2⟩
            · exact heq (by simpa using h)
      have hstep : portFoldStep offset
          (buildLine s0 (segs.map (fun pr => (markBlock offset done pr.1, pr.2)))) q =
          buildLine s0 (segs.map (fun pr => (markBlock offset (done ++ [q]) pr.1, pr.2))) := by
        show (if 4000 ≤ digitsToNat q ∧ digitsToNat q ≤ 6000 then
            pyReplace q (intRepr ((digitsToNat q : Int) + offset))
              (buildLine s0 (segs.map (fun pr => (markBlock offset done pr.1, pr.2))))
          else _) = _
        rw [if_pos hin, pyReplace, if_neg (by simp [hq_ne])]
        rw [replaceNE_buildLine q (intRepr ((digitsToNat q : Int) + offset)) s0 _
          (digitRun_of_portRun q hq_run) h0
          (sepsOk_map_fst (markBlock offset done) segs hsep) hblocksM hoccM]
        rw [hline]
      rw [List.foldl_cons, hstep,
        foldPorts_invariant offset s0 segs (done ++ [q]) rem hsplit' hoff h0
          hsep hruns hD hR, happq]
    · -- out of range: the fold step is the identity
      have hstep : portFoldStep offset
          (buildLine s0 (segs.map (fun pr => (markBlock offset done pr.1, pr.2)))) q =
          buildLine s0 (segs.map (fun pr => (markBlock offset done pr.1, pr.2))) := by
        show (if 4000 ≤ digitsToNat q ∧ digitsToNat q ≤ 6000 then
            pyReplace q (intRepr ((digitsToNat q : Int) + offset))
              (buildLine s0 (segs.map (fun pr => (markBlock offset done pr.1, pr.2))))
          else _) = _
        rw [if_neg hin]
      have hmark : segs.map (fun pr => (markBlock offset done pr.1, pr.2)) =
          segs.map (fun pr => (markBlock offset (done ++ [q]) pr.1, pr.2)) := by
        apply List.map_congr_left
        intro pr hpr
        by_cases hmem : pr.1 ∈ done
        · rw [markBlock, markBlock]
          by_cases hrange : 4000 ≤ digitsToNat pr.1 ∧ digitsToNat pr.1 ≤ 6000
          · rw [if_pos ⟨hmem, hrange.1, hrange.2⟩,
              if_pos ⟨List.mem_append_left _ hmem, hrange.1, hrange.2⟩]
          · rw [if_neg (fun hc => hrange ⟨hc.2.1, hc.2.2⟩),
              if_neg (fun hc => hrange ⟨hc.2.1, hc.2.2⟩)]
        · rw [markBlock, markBlock, if_neg (fun hc => hmem hc.1), if_neg]
          intro hc
          rcases List.mem_append.mp hc.1 with h | h
          · exact hmem h
          · have heq : pr.1 = q := by simpa using h
            exact hin (by rw [← heq]; exact ⟨hc.2.1, hc.2.2⟩)
      rw [List.foldl_cons, hstep, hmark,
        foldPorts_invariant offset s0 segs (done ++ [q]) rem hsplit' hoff h0
          hsep hruns hD hR, happq]

theorem processPorts_buildLine (offset : Int) (s0 : List Char)
    (segs : List (List Char × List Char))
    (hoff : -4000 ≤ offset) (h0 : digitFree s0 = true)
    (hsep : sepsOk segs = true)
    (hruns : ∀ pr ∈ segs, portRun pr.1 = true)
    (hD : ∀ p ∈ segs.map Prod.fst, ∀ q ∈ segs.map Prod.fst,
      occursIn p q = true → p = q)
    (hR : ∀ p ∈ segs.map Prod.fst,
      4000 ≤ digitsToNat p → digitsToNat p ≤ 6000 →
      ∀ q ∈ segs.map Prod.fst,
        occursIn q (intRepr ((digitsToNat p : Int) + offset)) = false) :
    processPorts offset (buildLine s0 segs) =
      buildLine s0 (segs.map (fun pr => (rewriteRun offset pr.1, pr.2))) := by
  rw [processPorts, findPorts_buildLine s0 segs h0 hsep hruns]
  have hinit : segs.map (fun pr => (markBlock offset [] pr.1, pr.2)) = segs := by
    have hpt : ∀ pr ∈ segs, ((markBlock offset [] pr.1, pr.2) :
        List Char × List Char) = pr := by
      intro pr _
      rw [markBlock, if_neg (fun hc => (List.not_mem_nil pr.1) hc.1)]
    calc segs.map (fun pr => (markBlock offset [] pr.1, pr.2))
        = segs.map id := List.map_congr_left hpt
      _ = segs := List.map_id segs
  have h1 := foldPorts_invariant offset s0 segs [] (segs.map Prod.fst)
    (by simp) hoff h0 hsep hruns hD hR
  rw [hinit, List.nil_append] at h1
  rw [h1]
  congr 1
  apply List.map_congr_left
  intro pr hpr
  have hmem : pr.1 ∈ segs.map Prod.fst := List.mem_map_of_mem Prod.fst hpr
  rw [markBlock, rewriteRun]
  by_cases hr : 4000 ≤ digitsToNat pr.1 ∧ digitsToNat pr.1 ≤ 6000
  · rw [if_pos ⟨hmem, hr.1, hr.2⟩, if_pos hr]
  · rw [if_neg (fun hc => hr ⟨hc.2.1, hc.2.2⟩), if_neg hr]

theorem lookupPath_nil (t : FSTree) : lookupPath t [] = some t := by
  cases t <;> rfl

theorem updateEntry_name (rules : List (List Char × List Char)) (offset : Int)
    (t : FSTree) : (updateEntry rules offset t).name = t.name := by
  cases t with
  | file n c =>
    rw [updateEntry]
    split <;> rfl
  | dir n tm cs => rfl

theorem findChild_updateEntries (rules : List (List Char × List Char))
    (offset : Int) (n : List Char) (cs : List FSTree) :
    findChild n (updateEntries rules offset cs) =
      Option.map (updateEntry rules offset) (findChild n cs) := by
  induction cs with
  | nil => rfl
  | cons c rest ih =>
    rw [updateEntries]
    unfold findChild at ih ⊢
    by_cases h : (c.name == n) = true
    · rw [List.find?_cons_of_pos, List.find?_cons_of_pos]
      · rfl
      · exact h
      · rw [updateEntry_name]; exact h
    · rw [List.find?_cons_of_neg, List.find?_cons_of_neg]
      · exact ih
      · simpa using h
      · rw [updateEntry_name]; simpa using h

theorem lookupPath_updateEntry (rules : List (List Char × List Char))
    (offset : Int) (t : FSTree) (path : List (List Char)) (hne : path ≠ []) :
    lookupPath (updateEntry rules offset t) path =
      Option.map (updateEntry rules offset) (lookupPath t path) := by
  induction path generalizing t with
  | nil => exact absurd rfl hne
  | cons n rest ih =>
    cases t with
    | file nm c =>
      rw [updateEntry]
      split <;> rfl
    | dir nm tm cs =>
      rw [show updateEntry rules offset (FSTree.dir nm tm cs) =
          FSTree.dir nm tm (updateEntries rules offset cs) from rfl]
      rw [lookupPath, lookupPath, findChild_updateEntries]
      cases h : findChild n cs with
      | none => rfl
      | some c =>
        simp only [Option.map_some']
        cases hr : rest with
        | nil => rw [lookupPath_nil, lookupPath_nil, Option.map_some']
        | cons m ms =>
          rw [← hr]
          exact ih c (by rw [hr]; exact List.cons_ne_nil _ _)

theorem lookupPath_update_env (rules : List (List Char × List Char))
    (offset : Int) (t : FSTree) (path : List (List Char)) (hne : path ≠ []) :
    lookupPath (update_environment_files rules offset t) path =
      Option.map (updateEntry rules offset) (lookupPath t path) := by
  cases t with
  | file nm c =>
    cases path with
    | nil => exact absurd rfl hne
    | cons n rest => rfl
  | dir nm tm cs =>
    exact lookupPath_updateEntry rules offset (FSTree.dir nm tm cs) path hne

/-!
Claim theorems.
-/

/-- C1 (counterexample): the top-level loop is NOT fault-isolated per
server.  In a world where `/s1` has no version subdirectory and `/s2` is
healthy, the run aborts with the `FileNotFoundError` raised while
processing `/s1`, even though processing `/s2` alone would have succeeded
and produced the cloned, rewritten version `2.0`. -/
theorem orchestrator_aborts_whole_run :
    runServers ("2.0".toList) [] 100 [exSrv1, exSrv2] exWorldC1 =
      Except.error PyErr.fileNotFound ∧
    process_server ("2.0".toList) [] 100 exSrv2 exWorldC1 =
      Except.ok
        ([("/s1".toList, FSTree.dir ("s1".toList) 0
            [FSTree.file ("readme.txt".toList) []]),
          ("/s2".toList, FSTree.dir ("s2".toList) 0
            [FSTree.dir ("1.0".toList) 1
              [FSTree.file ("a.ini".toList) ["port=4500\n".toList]],
             FSTree.dir ("2.0".toList) 1
              [FSTree.file ("a.ini".toList) ["port=4600\n".toList]]])],
         Outcome.updated) :=
  ⟨rfl, rfl⟩

/-- C1 (amended): an exception raised while processing one server
propagates out of the top-level loop, so the whole run aborts and no
subsequent server in the list is processed. -/
theorem exception_aborts_rest_of_run (nv : List Char)
    (rules : List (List Char × List Char)) (offset : Int) (s : Server)
    (rest : List Server) (w : World) (e : PyErr)
    (h : process_server nv rules offset s w = Except.error e) :
    runServers nv rules offset (s :: rest) w = Except.error e := by
  simp only [runServers, h]

/-- Witness for C1's amended theorem at the concrete failing world. -/
theorem exception_aborts_rest_of_run_witness :
    runServers ("2.0".toList) [] 100 [exSrv1] exWorldC1 =
      Except.error PyErr.fileNotFound :=
  exception_aborts_rest_of_run ("2.0".toList) [] 100 exSrv1 [] exWorldC1
    PyErr.fileNotFound rfl

/-- C3 (counterexample): a maximal run of six digits does NOT yield zero
renumbering candidates; `re.findall(r"(\d{4,5})")` greedily matches the
first five digits of the run. -/
theorem six_digit_run_yields_candidates :
    findPorts ("123456".toList) = ["12345".toList] ∧
    findPorts ("123456".toList) ≠ ([] : List (List Char)) := by
  exact ⟨by decide, by decide⟩

/-- C2: on a line whose digit content consists of maximal 4-5 digit runs
separated by digit-free text (the shape singled out by the claim's proviso
that no other digit substring collides with a matched numeral or its
replacement, here expressed by the hypotheses `hD` — no numeral occurs
inside a different one — and `hR` — no numeral occurs inside a shifted
replacement), the port-renumbering phase rewrites the line positionally:
every run whose value lies in `[4000, 6000]` is replaced in place by the
decimal representation of value + port_offset, and every other run is left
unchanged. -/
theorem ports_in_range_shifted (offset : Int) (s0 : List Char)
    (segs : List (List Char × List Char))
    (hoff : -4000 ≤ offset) (h0 : digitFree s0 = true)
    (hsep : sepsOk segs = true)
    (hruns : ∀ pr ∈ segs, portRun pr.1 = true)
    (hD : ∀ p ∈ segs.map Prod.fst, ∀ q ∈ segs.map Prod.fst,
      occursIn p q = true → p = q)
    (hR : ∀ p ∈ segs.map Prod.fst,
      4000 ≤ digitsToNat p → digitsToNat p ≤ 6000 →
      ∀ q ∈ segs.map Prod.fst,
        occursIn q (intRepr ((digitsToNat p : Int) + offset)) = false) :
    processPorts offset (buildLine s0 segs) =
      buildLine s0 (segs.map (fun pr => (rewriteRun offset pr.1, pr.2))) :=
  processPorts_buildLine offset s0 segs hoff h0 hsep hruns hD hR

/-- Witness for C2: `port=4500 x=5999` with offset 100 rewrites to
`port=4600 x=6099`. -/
theorem ports_in_range_shifted_witness :
    processPorts 100 (buildLine ("port=".toList)
      [("4500".toList, " x=".toList), ("5999".toList, "\n".toList)]) =
      "port=4600 x=6099\n".toList := by
  have h := ports_in_range_shifted 100 ("port=".toList)
    [("4500".toList, " x=".toList), ("5999".toList, "\n".toList)]
    (by decide) (by decide) (by decide) (by decide) (by decide) (by decide)
  rw [h]
  decide

/-- C10: when the same in-range numeral occurs twice in a line (separated
by digit-free text), the first fold iteration's whole-line `replace`
rewrites both occurrences at once, and the duplicate match's iteration is a
no-op because the numeral no longer occurs (hypothesis `hnocc`: the numeral
does not occur inside its own replacement).  Each occurrence therefore ends
up shifted exactly once. -/
theorem duplicate_numeral_shifted_once (offset : Int)
    (s0 s1 s2 p : List Char)
    (hoff : -4000 ≤ offset)
    (h0 : digitFree s0 = true) (h1 : digitFree s1 = true)
    (h2 : digitFree s2 = true) (hs1ne : s1 ≠ [])
    (hp : portRun p = true)
    (hrange : 4000 ≤ digitsToNat p ∧ digitsToNat p ≤ 6000)
    (hnocc : occursIn p (intRepr ((digitsToNat p : Int) + offset)) = false) :
    processPorts offset (s0 ++ p ++ s1 ++ p ++ s2) =
      s0 ++ intRepr ((digitsToNat p : Int) + offset) ++ s1 ++
        intRepr ((digitsToNat p : Int) + offset) ++ s2 := by
  have hsep : sepsOk [(p, s1), (p, s2)] = true := by
    refine Bool.and_eq_true_iff.mpr ⟨Bool.and_eq_true_iff.mpr ⟨h1, ?_⟩, h2⟩
    simp [hs1ne]
  have hruns : ∀ pr ∈ [(p, s1), (p, s2)], portRun pr.1 = true := by
    intro pr hpr
    rcases List.mem_cons.mp hpr with h | h
    · rw [h]; exact hp
    · rcases List.mem_cons.mp h with h' | h'
      · rw [h']; exact hp
      · simp at h'
  have hD : ∀ a ∈ [(p, s1), (p, s2)].map Prod.fst,
      ∀ b ∈ [(p, s1), (p, s2)].map Prod.fst, occursIn a b = true → a = b := by
    intro a ha b hb _
    simp only [List.map_cons, List.map_nil, List.mem_cons,
      List.not_mem_nil, or_false] at ha hb
    rcases ha with ha | ha <;> rcases hb with hb | hb <;> rw [ha, hb]
  have hR : ∀ a ∈ [(p, s1), (p, s2)].map Prod.fst,
      4000 ≤ digitsToNat a → digitsToNat a ≤ 6000 →
      ∀ b ∈ [(p, s1), (p, s2)].map Prod.fst,
        occursIn b (intRepr ((digitsToNat a : Int) + offset)) = false := by
    intro a ha _ _ b hb
    simp only [List.map_cons, List.map_nil, List.mem_cons,
      List.not_mem_nil, or_false] at ha hb
    rcases ha with ha | ha <;> rcases hb with hb | hb <;> rw [ha, hb] <;>
      exact hnocc
  have key := processPorts_buildLine offset s0 [(p, s1), (p, s2)] hoff h0
    hsep hruns hD hR
  have hr : rewriteRun offset p = intRepr ((digitsToNat p : Int) + offset) := by
    rw [rewriteRun, if_pos hrange]
  have hL : buildLine s0 [(p, s1), (p, s2)] = s0 ++ p ++ s1 ++ p ++ s2 := by
    simp [buildLine, List.append_assoc]
  have hRW : buildLine s0
      ([(p, s1), (p, s2)].map (fun pr => (rewriteRun offset pr.1, pr.2))) =
      s0 ++ intRepr ((digitsToNat p : Int) + offset) ++ s1 ++
        intRepr ((digitsToNat p : Int) + offset) ++ s2 := by
    simp [buildLine, hr, List.append_assoc]
  rw [← hL, key, hRW]

/-- Witness for C10: `a 4500 b 4500` with offset 100 has both occurrences
rewritten to 4600, each shifted once. -/
theorem duplicate_numeral_shifted_once_witness :
    processPorts 100 ("a ".toList ++ "4500".toList ++ " b ".toList ++
        "4500".toList ++ "\n".toList) =
      "a 4600 b 4600\n".toList := by
  have h := duplicate_numeral_shifted_once 100 ("a ".toList) (" b ".toList)
    ("\n".toList) ("4500".toList) (by decide) (by decide) (by decide)
    (by decide) (by decide) (by decide) ⟨by decide, by decide⟩ (by decide)
  rw [h]
  decide

/-- C3 (amended): the renumbering candidates are the greedy left-to-right
`\d{4,5}` matches.  On lines whose maximal digit runs all have length 4 or
5 (separated by digit-free text), the candidates are exactly those maximal
runs, in order; but a run of six or more digits is NOT candidate-free: the
scanner greedily takes its first five digits as a match (see the
counterexample theorem). -/
theorem candidates_on_separated_lines (s0 : List Char)
    (segs : List (List Char × List Char)) (h0 : digitFree s0 = true)
    (hsep : sepsOk segs = true)
    (hruns : ∀ pr ∈ segs, portRun pr.1 = true) :
    findPorts (buildLine s0 segs) = segs.map Prod.fst :=
  findPorts_buildLine s0 segs h0 hsep hruns

/-- Witness for C3's amended theorem: `x=4500 59999` yields exactly the two
maximal runs as candidates. -/
theorem candidates_on_separated_lines_witness :
    findPorts (buildLine ("x=".toList)
      [("4500".toList, " ".toList), ("59999".toList, "\n".toList)]) =
      ["4500".toList, "59999".toList] := by
  have h := candidates_on_separated_lines ("x=".toList)
    [("4500".toList, " ".toList), ("59999".toList, "\n".toList)]
    (by decide) (by decide) (by decide)
  rw [h]
  decide

/-- C4: string substitution is sequential, not simultaneous.  With the
ruleset `[a ↦ bc, b ↦ X]`, the first pair rewrites `"a"` to `"bc"`, and the
later pair's `old` string `"b"`, which occurs inside the earlier pair's
`new` string, is then further rewritten, giving `"Xc"`. -/
theorem replacements_sequential_not_simultaneous :
    applyReplacements [("a".toList, "bc".toList)] ("a".toList) =
      "bc".toList ∧
    applyReplacements [("a".toList, "bc".toList), ("b".toList, "X".toList)]
      ("a".toList) = "Xc".toList := by
  exact ⟨by decide, by decide⟩

/-- C5: the content rewrite is not idempotent.  With `port_offset = 100`,
one application rewrites `port=4500` to `port=4600`; since `4600` is still
in `[4000, 6000]`, a second application shifts it again to `port=4700`, so
applying the rewrite twice differs from applying it once. -/
theorem rewrite_not_idempotent :
    modify_ports_and_paths [] 100 ["port=4500\n".toList] =
      ["port=4600\n".toList] ∧
    modify_ports_and_paths [] 100
      (modify_ports_and_paths [] 100 ["port=4500\n".toList]) =
      ["port=4700\n".toList] ∧
    modify_ports_and_paths [] 100
      (modify_ports_and_paths [] 100 ["port=4500\n".toList]) ≠
      modify_ports_and_paths [] 100 ["port=4500\n".toList] := by
  exact ⟨by decide, by decide, by decide⟩

/-- C6: when the trimmed, uppercased environment label is not a key of the
loaded environment-rules mapping, `main` returns with the world unchanged
and an empty outcome list: no server is processed and no filesystem
mutation happens. -/
theorem invalid_environment_aborts (nvRaw envRaw : List Char)
    (serversData : List Server) (rulesData : List (List Char × EnvRules))
    (w : World)
    (h : rulesData.find? (fun e => e.1 == pyUpper (pyStrip envRaw)) = none) :
    main nvRaw envRaw serversData rulesData w = Except.ok (w, []) := by
  unfold main
  rw [h]

/-- Witness for C6: label `" c "` normalises to `"C"`, which is not among
the keys `A`, `B`; the world is returned unchanged. -/
theorem invalid_environment_aborts_witness :
    main ("3.8.0".toList) (" c ".toList)
      [⟨"api1".toList, "/srv/api1".toList⟩] exRulesC6 exWorldC6 =
      Except.ok (exWorldC6, []) :=
  invalid_environment_aborts ("3.8.0".toList) (" c ".toList)
    [⟨"api1".toList, "/srv/api1".toList⟩] exRulesC6 exWorldC6 rfl

/-- C7: the version resolver considers exactly the immediate children that
are directories: it fails with `FileNotFoundError` precisely when there are
none, and a returned entry is one of the directory children and carries the
maximum creation timestamp among them.  (In the embedding the resolver is a
pure function, matching the no-side-effects part of the claim.) -/
theorem latest_version_resolver_correct (cs : List FSTree) :
    (get_latest_version_path cs = Except.error PyErr.fileNotFound ↔
      cs.filter FSTree.isDir = []) ∧
    ∀ d, get_latest_version_path cs = Except.ok d →
      d ∈ cs.filter FSTree.isDir ∧
      ∀ c ∈ cs.filter FSTree.isDir, c.ctime ≤ d.ctime := by
  unfold get_latest_version_path
  cases h : cs.filter FSTree.isDir with
  | nil =>
    refine ⟨by simp, ?_⟩
    intro d hd
    exact absurd hd (by simp)
  | cons a rest =>
    constructor
    · simp
    · intro d hd
      injection hd with hd'
      rw [← hd']
      exact ⟨pyMaxBy_mem a rest, pyMaxBy_max a rest⟩

/-- Witness for C7: on a listing with one file and two directories, the
resolver returns the directory `v2` with the larger timestamp, and `v2` is
among the directory children. -/
theorem latest_version_resolver_witness :
    FSTree.dir ("v2".toList) 9 [] ∈ exCsC7.filter FSTree.isDir :=
  ((latest_version_resolver_correct exCsC7).2 (FSTree.dir ("v2".toList) 9 [])
    rfl).1

/-- C8: when the server root already contains an entry named exactly the
target version, `process_server` performs no copy and no rewrite: it
returns the world unchanged with outcome `skipped`, and no error. -/
theorem existing_version_skipped (nv : List Char)
    (rules : List (List Char × List Char)) (offset : Int) (srv : Server)
    (w : World) (dn : List Char) (dt : Nat) (cs : List FSTree)
    (hl : lookupW srv.path w = some (FSTree.dir dn dt cs))
    (hv : version_exists cs nv = true) :
    process_server nv rules offset srv w = Except.ok (w, Outcome.skipped) := by
  unfold process_server
  rw [hl]
  simp [hv]

/-- Witness for C8 at a concrete world already holding version `3.8.0`. -/
theorem existing_version_skipped_witness :
    process_server ("3.8.0".toList) [] 100
      ⟨"api1".toList, "/srv/api1".toList⟩ exWorldC8 =
      Except.ok (exWorldC8, Outcome.skipped) :=
  existing_version_skipped ("3.8.0".toList) [] 100
    ⟨"api1".toList, "/srv/api1".toList⟩ exWorldC8 ("api1".toList) 0 exCsC8
    rfl rfl

/-- C9: the content rewriter modifies exactly the files whose name ends,
case-insensitively, in `.ini`: every file reachable at a path in the cloned
tree is still there after the rewrite, with its content transformed by
`modify_ports_and_paths` when the name has the INI extension and returned
byte-for-byte unchanged otherwise. -/
theorem content_rewriter_ini_exact (rules : List (List Char × List Char))
    (offset : Int) (t : FSTree) (path : List (List Char)) (name : List Char)
    (content : List (List Char)) (hne : path ≠ [])
    (h : lookupPath t path = some (FSTree.file name content)) :
    lookupPath (update_environment_files rules offset t) path =
      some (FSTree.file name
        (if iniName name then modify_ports_and_paths rules offset content
         else content)) := by
  rw [lookupPath_update_env rules offset t path hne, h, Option.map_some']
  simp only [updateEntry]
  split <;> rfl

/-- Witness for C9: in a tree holding `app.ini` and `readme.txt`, both
paths still resolve after the rewrite, the INI file with rewritten content
and the text file unchanged. -/
theorem content_rewriter_ini_exact_witness :
    lookupPath (update_environment_files [] 100 exTreeC9)
      ["app.ini".toList] =
      some (FSTree.file ("app.ini".toList)
        (if iniName ("app.ini".toList) then
          modify_ports_and_paths [] 100 ["port=4500\n".toList]
         else ["port=4500\n".toList])) ∧
    lookupPath (update_environment_files [] 100 exTreeC9)
      ["readme.txt".toList] =
      some (FSTree.file ("readme.txt".toList)
        (if iniName ("readme.txt".toList) then
          modify_ports_and_paths [] 100 ["4500\n".toList]
         else ["4500\n".toList])) :=
  ⟨content_rewriter_ini_exact [] 100 exTreeC9 ["app.ini".toList]
      ("app.ini".toList) ["port=4500\n".toList] (List.cons_ne_nil _ _) rfl,
   content_rewriter_ini_exact [] 100 exTreeC9 ["readme.txt".toList]
      ("readme.txt".toList) ["4500\n".toList] (List.cons_ne_nil _ _) rfl⟩

end ConfigTool
